import Mathlib

/-!
A verification development for the PsyNeuLink `Scheduler`
(`PsyNeuLink/scheduling/Scheduler.py`).

The scheduler walks a topologically layered `consideration_queue` once per
PASS, evaluates per-node Conditions, performs an intra-layer fixed-point
expansion, yields per-time-step execution sets, and stops a TRIAL when the
TRIAL termination Condition is satisfied.  The definitions below are a
shallow embedding of `Scheduler.run`, `Scheduler._validate_termination`,
the counter bookkeeping (`_init_counts`, `_reset_count`, `_increment_time`,
`_reset_time`) and the inlined execution-recording block of the run loop.

The `TimeScale` enumeration and the Condition classes (`Always`,
`EveryNCalls`, `AllHaveRun`) live in modules that are not part of the
sources here (`PsyNeuLink.Globals.TimeScale`, `PsyNeuLink.scheduling.condition`);
they are modelled from the spec, as is the topological layering performed
by the external `toposort` dependency.
-/

namespace PsyNeuLink

/-- Nodes (Mechanisms) are opaque identifiers; we embed them as naturals. -/
abbrev Node := Nat

/-- Modelled from the spec: the ordered enumeration of logical time scales
{TIME_STEP, PASS, TRIAL, RUN, LIFE} (`PsyNeuLink.Globals.TimeScale` is not
among the sources). -/
inductive TimeScale where
  | TIME_STEP
  | PASS
  | TRIAL
  | RUN
  | LIFE
deriving DecidableEq

/-- The mutable bookkeeping state of a `Scheduler`:
`times p q` is the number of TimeScale-`q` ticks in the current `p` tick,
`counts_total ts n` the number of executions of node `n` in the current
`ts` tick, `counts_useable a b` the unspent executions of `a` available to
conditions owned by `b`, and `execution_list` the full history of yielded
time steps (`Scheduler.__init__` / `_init_counts`). -/
structure SchedState where
  times : TimeScale → TimeScale → Nat
  counts_total : TimeScale → Node → Nat
  counts_useable : Node → Node → Nat
  execution_list : List (Finset Node)

/-- Embedding of `Scheduler._increment_time`: for every TimeScale ts,
`times[ts][time_scale] += 1`. -/
def increment_time (scale : TimeScale) (st : SchedState) : SchedState :=
  { st with times := fun ts s => if s = scale then st.times ts s + 1 else st.times ts s }

/-- Embedding of `Scheduler._reset_time`: for every TimeScale ts,
`times[time_scale][ts] = 0`. -/
def reset_time (scale : TimeScale) (st : SchedState) : SchedState :=
  { st with times := fun ts s => if ts = scale then 0 else st.times ts s }

/-- Embedding of `Scheduler._reset_count` applied to `counts_total`:
every cell of the given scale is zeroed. -/
def reset_count (scale : TimeScale) (st : SchedState) : SchedState :=
  { st with counts_total := fun ts n => if ts = scale then 0 else st.counts_total ts n }

/-- Embedding of the execution-recording block of `Scheduler.run`
(the body executed when `current_node` is added to `cur_time_step_exec`):
first `counts_total[ts][current_node] += 1` for every TimeScale ts, then
`counts_useable[n][current_node] = 0` for every node n of the scheduler,
then `counts_useable[current_node][n] += 1` for every node n of the
scheduler.  The two `counts_useable` loops iterate over the keys of the
dictionary, which are exactly the scheduler's nodes. -/
def record_execution (nodes : List Node) (node : Node) (st : SchedState) : SchedState :=
  let zeroed : Node → Node → Nat := fun a b =>
    if b = node ∧ a ∈ nodes then 0 else st.counts_useable a b
  { st with
    counts_total := fun ts n =>
      if n = node then st.counts_total ts n + 1 else st.counts_total ts n
    counts_useable := fun a b =>
      if a = node ∧ b ∈ nodes then zeroed a b + 1 else zeroed a b }

/-- Modelled from the spec: a Condition is a pure predicate over the
scheduler state, its owner already bound
(`PsyNeuLink.scheduling.condition` is not among the sources). -/
abbrev Condition := SchedState → Bool

/-- Modelled from the spec: `Always` is always satisfied. -/
def Always : Condition := fun _ => true

/-- Modelled from the spec: `EveryNCalls(other, n)` with owner `owner` is
satisfied when `counts_useable[other][owner] >= n`. -/
def EveryNCalls (other owner : Node) (n : Nat) : Condition :=
  fun st => decide (n ≤ st.counts_useable other owner)

/-- Modelled from the spec: `AllHaveRun` is satisfied when every node has
`counts_total[TRIAL][node] >= 1`. -/
def AllHaveRun (nodes : List Node) : Condition :=
  fun st => nodes.all fun n => decide (1 ≤ st.counts_total TimeScale.TRIAL n)

/-- One full scan of the current consideration set (the body of the
do-while loop of `Scheduler.run`): each node of the layer, in turn, is
added to `cur_time_step_exec` if it is not already there and its Condition
is satisfied in the current state; an addition records the execution and
sets the `cur_consideration_set_has_changed` flag. -/
def scanLayer (conds : Node → Condition) (nodes : List Node) :
    List Node → SchedState → Finset Node → Bool → SchedState × Finset Node × Bool
  | [], st, exec, ch => (st, exec, ch)
  | x :: rest, st, exec, ch =>
    if x ∉ exec ∧ conds x st = true then
      scanLayer conds nodes rest (record_execution nodes x st) (insert x exec) true
    else
      scanLayer conds nodes rest st exec ch

/-- The do-while loop of `Scheduler.run` over one consideration set:
repeat full scans of the layer until a scan produces no additions.  The
loop is written with explicit fuel; `layerFix` runs it with fuel
`layer.length + 1`, which always suffices (see the fixed-point theorem). -/
def layerLoop (conds : Node → Condition) (nodes : List Node) (layer : List Node) :
    Nat → SchedState → Finset Node → SchedState × Finset Node
  | 0, st, exec => (st, exec)
  | fuel + 1, st, exec =>
    let r := scanLayer conds nodes layer st exec false
    if r.2.2 = true then layerLoop conds nodes layer fuel r.1 r.2.1 else (r.1, r.2.1)

/-- The intra-layer fixed-point expansion of one time step, starting from
an empty `cur_time_step_exec`. -/
def layerFix (conds : Node → Condition) (nodes : List Node) (layer : List Node)
    (st : SchedState) : SchedState × Finset Node :=
  layerLoop conds nodes layer (layer.length + 1) st ∅

/-- The append of a yielded time step to `self.execution_list`. -/
def appendStep (st : SchedState) (s : Finset Node) : SchedState :=
  { st with execution_list := st.execution_list ++ [s] }

/-- The state transition performed by `Scheduler.run` when a non-empty
time step is emitted: append it to `execution_list`, yield it, and
increment the TIME_STEP clock. -/
def stepYield (p : SchedState × Finset Node) : SchedState :=
  increment_time TimeScale.TIME_STEP (appendStep p.1 p.2)

/-- The walk of the consideration queue inside one PASS of `Scheduler.run`:
layer by layer, stopping early when the TRIAL termination condition is
satisfied; a non-empty time step is appended to `execution_list`, yielded,
and followed by a TIME_STEP increment.  Returns the final state, the list
of yielded time steps, and the `execution_list_has_changed` flag. -/
def walkQueue (term : Condition) (conds : Node → Condition) (nodes : List Node) :
    List (List Node) → SchedState → SchedState × List (Finset Node) × Bool
  | [], st => (st, [], false)
  | layer :: rest, st =>
    if term st = true then (st, [], false)
    else
      if (layerFix conds nodes layer st).2 = ∅ then
        walkQueue term conds nodes rest (layerFix conds nodes layer st).1
      else
        ((walkQueue term conds nodes rest (stepYield (layerFix conds nodes layer st))).1,
         (layerFix conds nodes layer st).2 ::
           (walkQueue term conds nodes rest (stepYield (layerFix conds nodes layer st))).2.1,
         true)

/-- The PASS-scope resets performed at the top of each iteration of the
TRIAL while-loop. -/
def passReset (st : SchedState) : SchedState :=
  reset_time TimeScale.PASS (reset_count TimeScale.PASS st)

/-- One iteration of the TRIAL while-loop of `Scheduler.run` (one PASS):
reset the PASS scope of `counts_total` and of the times, walk the
consideration queue, yield one empty time step (with a TIME_STEP
increment) if the whole PASS produced no additions, and increment the
PASS clock. -/
def onePass (term : Condition) (conds : Node → Condition) (nodes : List Node)
    (queue : List (List Node)) (st : SchedState) : SchedState × List (Finset Node) :=
  if (walkQueue term conds nodes queue (passReset st)).2.2 = true then
    (increment_time TimeScale.PASS (walkQueue term conds nodes queue (passReset st)).1,
     (walkQueue term conds nodes queue (passReset st)).2.1)
  else
    (increment_time TimeScale.PASS
       (increment_time TimeScale.TIME_STEP
         (appendStep (walkQueue term conds nodes queue (passReset st)).1 ∅)),
     (walkQueue term conds nodes queue (passReset st)).2.1 ++ [(∅ : Finset Node)])

/-- The TRIAL while-loop of `Scheduler.run`, with explicit fuel bounding
the number of PASSes (the Python loop is unbounded when the termination
condition never fires).  When the TRIAL termination condition is observed
satisfied the TRIAL clock is incremented and the flag `true` is returned;
fuel exhaustion returns `false`. -/
def runLoop (term : Condition) (conds : Node → Condition) (nodes : List Node)
    (queue : List (List Node)) : Nat → SchedState → SchedState × List (Finset Node) × Bool
  | 0, st => (st, [], false)
  | fuel + 1, st =>
    if term st = true then (increment_time TimeScale.TRIAL st, [], true)
    else
      ((runLoop term conds nodes queue fuel (onePass term conds nodes queue st).1).1,
       (onePass term conds nodes queue st).2 ++
         (runLoop term conds nodes queue fuel (onePass term conds nodes queue st).1).2.1,
       (runLoop term conds nodes queue fuel (onePass term conds nodes queue st).1).2.2)

/-- The error raised by `Scheduler` validation. -/
inductive SchedulerError where
  | trialTerminationMissing
deriving DecidableEq

/-- Embedding of `Scheduler._validate_termination`: when no termination
dict was supplied at all, every TimeScale is given `AllHaveRun()`;
otherwise a `None` entry for `TimeScale.TRIAL` raises a `SchedulerError`,
and `None` entries for other scales are left as they are. -/
def validate_termination (nodes : List Node) :
    Option (TimeScale → Option Condition) →
      Except SchedulerError (TimeScale → Option Condition)
  | none => .ok fun _ => some (AllHaveRun nodes)
  | some t =>
    if (t TimeScale.TRIAL).isSome then .ok t
    else .error .trialTerminationMissing

/-- A `Scheduler`: its node list, its consideration queue (each layer kept
as a list to fix an iteration order; within-layer order is arbitrary in
the source), and its condition set as a total map (the source defaults
missing entries to `Always` in `_validate_condition_set`). -/
structure Scheduler where
  nodes : List Node
  consideration_queue : List (List Node)
  conditions : Node → Condition

/-- The state resets performed at the top of `Scheduler.run`: all of
`counts_useable` is zeroed, then the TRIAL scope of `counts_total` and the
TRIAL row of the time counters are reset. -/
def runInit (st : SchedState) : SchedState :=
  reset_time TimeScale.TRIAL
    (reset_count TimeScale.TRIAL { st with counts_useable := fun _ _ => 0 })

/-- Embedding of a full `Scheduler.run` call: validate the termination
conditions, perform the initial resets, and run the TRIAL loop.  Returns
the final state, the yielded time steps, and whether the TRIAL termination
condition was reached within the fuel. -/
def schedRun (sched : Scheduler) (tc : Option (TimeScale → Option Condition))
    (fuel : Nat) (st : SchedState) :
    Except SchedulerError (SchedState × List (Finset Node) × Bool) :=
  match validate_termination sched.nodes tc with
  | .error e => .error e
  | .ok t =>
    match t TimeScale.TRIAL with
    | none => .error .trialTerminationMissing
    | some term =>
      .ok (runLoop term sched.conditions sched.nodes sched.consideration_queue fuel
            (runInit st))

/-- The observable output of `schedRun`: the yielded time steps and the
termination flag. -/
def runYields (sched : Scheduler) (tc : Option (TimeScale → Option Condition))
    (fuel : Nat) (st : SchedState) :
    Except SchedulerError (List (Finset Node) × Bool) :=
  (schedRun sched tc fuel st).map fun r => (r.2.1, r.2.2)

/-- The all-zero state established by `Scheduler.__init__` via
`_init_counts`. -/
def initState : SchedState :=
  { times := fun _ _ => 0
    counts_total := fun _ _ => 0
    counts_useable := fun _ _ => 0
    execution_list := [] }

/-- Modelled from the spec: one step of the Kahn-style topological
layering used by `_init_consideration_queue_from_system` through the
external `toposort` dependency — the next layer is the set of remaining
nodes all of whose prerequisites have already been removed. -/
def nextLayer (deps : Node → List Node) (rem : List Node) : List Node :=
  rem.filter fun n => (deps n).all fun d => decide (d ∉ rem)

/-- Modelled from the spec: the full Kahn-style layering.  Layers are
extracted until no node remains; an empty layer with nodes remaining
means the graph has a cycle, reported as `none` (the `CyclicGraphError`
of the spec).  The fuel is the number of remaining nodes, which suffices
because every successful step removes at least one node. -/
def toposortLayers (deps : Node → List Node) : Nat → List Node → Option (List (List Node))
  | _, [] => some []
  | 0, _ :: _ => none
  | fuel + 1, x :: rem =>
    if (nextLayer deps (x :: rem)).isEmpty then none
    else
      (toposortLayers deps fuel
          ((x :: rem).filter fun n => decide (n ∉ nextLayer deps (x :: rem)))).map
        fun rest => nextLayer deps (x :: rem) :: rest

/-- Modelled from the spec: the consideration queue derived from the
dependency graph at Scheduler construction, `none` standing for a raised
`CyclicGraphError` (in which case `self.consideration_queue` keeps its
initial empty value — no partial queue). -/
def consideration_queue_of (nodes : List Node) (deps : Node → List Node) :
    Option (List (List Node)) :=
  toposortLayers deps nodes.length nodes

/-- A directed cycle of the dependency graph: a non-empty list of nodes in
which every element is followed (cyclically) by one of its prerequisites.
Edges point from prerequisite to dependent, so `p` read backwards is a
directed cycle of edges; a graph has a directed cycle in one reading
exactly when it has one in the other. -/
def IsCycle (deps : Node → List Node) (p : List Node) : Prop :=
  p ≠ [] ∧ ∀ i < p.length, p.getD ((i + 1) % p.length) 0 ∈ deps (p.getD i 0)

instance (deps : Node → List Node) (p : List Node) : Decidable (IsCycle deps p) := by
  unfold IsCycle; infer_instance

/-- The condition set of the documented linear-chain example: `A = 0` with
implicit `Always`, `B = 1` with `EveryNCalls(A, 2)`, `C = 2` with
`EveryNCalls(B, 3)`. -/
def chainConds : Node → Condition := fun n =>
  if n = 1 then EveryNCalls 0 1 2
  else if n = 2 then EveryNCalls 1 2 3
  else Always

/-- The Scheduler of the documented linear-chain example `A → B → C`,
each node in its own consideration layer. -/
def chainSched : Scheduler :=
  { nodes := [0, 1, 2]
    consideration_queue := [[0], [1], [2]]
    conditions := chainConds }

/-- Dependency function of the three-node chain `0 → 1 → 2`. -/
def chainDeps : Node → List Node := fun n =>
  if n = 1 then [0] else if n = 2 then [1] else []

/-- Dependency function of a two-node cyclic graph `0 → 1 → 0`. -/
def cyclicDeps : Node → List Node := fun n =>
  if n = 0 then [1] else if n = 1 then [0] else []

/-- A Bool-valued success projection for `Except` results. -/
def isOkE {ε α : Type} : Except ε α → Bool
  | .ok _ => true
  | .error _ => false

/-- A TRIAL termination condition in the style of
`All(AtPass(0), AfterNCalls(0, 1, TimeScale.TRIAL))`: satisfied while the
TRIAL is still in its first PASS and node `0` has executed at least once
in the TRIAL. -/
def c8Term : Condition := fun st =>
  decide (st.times TimeScale.TRIAL TimeScale.PASS = 0) &&
    decide (1 ≤ st.counts_total TimeScale.TRIAL 0)

/-- Condition set with `Always` on node `0` and a never-satisfiable
Condition on node `1`. -/
def c8Conds : Node → Condition := fun n =>
  if n = 0 then Always else fun _ => false

/-- A two-layer scheduler used to probe early termination mid-walk. -/
def c8Sched : Scheduler :=
  { nodes := [0, 1]
    consideration_queue := [[0], [1]]
    conditions := c8Conds }

/-- A termination dict binding `c8Term` to TRIAL and leaving the other
scales unset. -/
def c8Tc : TimeScale → Option Condition := fun ts =>
  if ts = TimeScale.TRIAL then some c8Term else none

/-- The state at the start of the first PASS of `c8Sched`'s run. -/
def stPassC8 : SchedState :=
  passReset (runInit initState)

/-- The state at the layer boundary reached after the first layer of
`c8Sched`'s first PASS has been processed and its time step yielded. -/
def stMidC8 : SchedState :=
  stepYield (layerFix c8Conds [0, 1] [0] stPassC8)

theorem scan_mono (conds : Node → Condition) (nodes : List Node) :
    ∀ (l : List Node) (st : SchedState) (exec : Finset Node) (ch : Bool),
      exec ⊆ (scanLayer conds nodes l st exec ch).2.1
  | [], _, _, _ => Finset.Subset.refl _
  | x :: rest, st, exec, ch => by
    simp only [scanLayer]
    split
    · exact (Finset.subset_insert x exec).trans (scan_mono conds nodes rest _ _ _)
    · exact scan_mono conds nodes rest st exec ch

theorem scan_sub_union (conds : Node → Condition) (nodes : List Node) :
    ∀ (l : List Node) (st : SchedState) (exec : Finset Node) (ch : Bool),
      (scanLayer conds nodes l st exec ch).2.1 ⊆ exec ∪ l.toFinset
  | [], _, exec, _ => Finset.subset_union_left
  | x :: rest, st, exec, ch => by
    simp only [scanLayer]
    split
    · refine (scan_sub_union conds nodes rest _ _ _).trans fun a ha => ?_
      simp only [Finset.mem_union, Finset.mem_insert, List.toFinset_cons] at ha ⊢
      tauto
    · refine (scan_sub_union conds nodes rest _ _ _).trans fun a ha => ?_
      simp only [Finset.mem_union, Finset.mem_insert, List.toFinset_cons] at ha ⊢
      tauto

theorem scan_ch_true (conds : Node → Condition) (nodes : List Node) :
    ∀ (l : List Node) (st : SchedState) (exec : Finset Node),
      (scanLayer conds nodes l st exec true).2.2 = true
  | [], _, _ => rfl
  | x :: rest, st, exec => by
    simp only [scanLayer]
    split
    · exact scan_ch_true conds nodes rest _ _
    · exact scan_ch_true conds nodes rest _ _

theorem scan_false_id (conds : Node → Condition) (nodes : List Node) :
    ∀ (l : List Node) (st : SchedState) (exec : Finset Node) (ch : Bool),
      (scanLayer conds nodes l st exec ch).2.2 = false →
      scanLayer conds nodes l st exec ch = (st, exec, ch)
  | [], _, _, _, _ => rfl
  | x :: rest, st, exec, ch, h => by
    by_cases hc : x ∉ exec ∧ conds x st = true
    · rw [scanLayer, if_pos hc] at h
      rw [scan_ch_true] at h
      cases h
    · rw [scanLayer, if_neg hc] at h ⊢
      exact scan_false_id conds nodes rest st exec ch h

theorem scan_changed_grow (conds : Node → Condition) (nodes : List Node) :
    ∀ (l : List Node) (st : SchedState) (exec : Finset Node),
      (scanLayer conds nodes l st exec false).2.2 = true →
      exec ⊂ (scanLayer conds nodes l st exec false).2.1
  | [], _, _, h => by cases h
  | x :: rest, st, exec, h => by
    by_cases hc : x ∉ exec ∧ conds x st = true
    · rw [scanLayer, if_pos hc] at h ⊢
      exact (Finset.ssubset_insert hc.1).trans_subset (scan_mono conds nodes rest _ _ _)
    · rw [scanLayer, if_neg hc] at h ⊢
      exact scan_changed_grow conds nodes rest st exec h

theorem layerLoop_fix (conds : Node → Condition) (nodes : List Node) (layer : List Node) :
    ∀ (fuel : Nat) (st : SchedState) (exec : Finset Node),
      (layer.toFinset \ exec).card < fuel →
      (scanLayer conds nodes layer (layerLoop conds nodes layer fuel st exec).1
          (layerLoop conds nodes layer fuel st exec).2 false).2.2 = false ∧
      ∀ fuel', fuel ≤ fuel' →
        layerLoop conds nodes layer fuel' st exec =
          layerLoop conds nodes layer fuel st exec
  | 0, _, _, h => absurd h (Nat.not_lt_zero _)
  | fuel + 1, st, exec, h => by
    by_cases hch : (scanLayer conds nodes layer st exec false).2.2 = true
    · have hgrow := scan_changed_grow conds nodes layer st exec hch
      have hsub := scan_sub_union conds nodes layer st exec false
      have hcard : (layer.toFinset \ (scanLayer conds nodes layer st exec false).2.1).card
          < (layer.toFinset \ exec).card := by
        apply Finset.card_lt_card
        obtain ⟨x, hx1, hx2⟩ := (Finset.ssubset_iff_of_subset hgrow.subset).1 hgrow
        refine ⟨Finset.sdiff_subset_sdiff (Finset.Subset.refl _) hgrow.subset, ?_⟩
        intro hall
        have hxA : x ∈ layer.toFinset := by
          rcases Finset.mem_union.1 (hsub hx1) with hx | hx
          · exact absurd hx hx2
          · exact hx
        have := hall (Finset.mem_sdiff.2 ⟨hxA, hx2⟩)
        exact (Finset.mem_sdiff.1 this).2 hx1
      have hlt : (layer.toFinset \ (scanLayer conds nodes layer st exec false).2.1).card
          < fuel := lt_of_lt_of_le hcard (Nat.lt_succ_iff.1 h)
      have ih := layerLoop_fix conds nodes layer fuel
        (scanLayer conds nodes layer st exec false).1
        (scanLayer conds nodes layer st exec false).2.1 hlt
      have hstep : layerLoop conds nodes layer (fuel + 1) st exec =
          layerLoop conds nodes layer fuel (scanLayer conds nodes layer st exec false).1
            (scanLayer conds nodes layer st exec false).2.1 := by
        rw [layerLoop, if_pos hch]
      refine ⟨by rw [hstep]; exact ih.1, ?_⟩
      intro fuel' hf
      obtain ⟨fuel'', rfl⟩ : ∃ k, fuel' = k + 1 := ⟨fuel' - 1, by omega⟩
      rw [layerLoop, if_pos hch, hstep]
      exact ih.2 fuel'' (by omega)
    · have hch' : (scanLayer conds nodes layer st exec false).2.2 = false :=
        Bool.eq_false_iff.2 hch
      have hid := scan_false_id conds nodes layer st exec false hch'
      have hstep : layerLoop conds nodes layer (fuel + 1) st exec = (st, exec) := by
        rw [layerLoop, if_neg hch, hid]
      refine ⟨?_, ?_⟩
      · rw [hstep]
        exact hch'
      · intro fuel' hf
        obtain ⟨fuel'', rfl⟩ : ∃ k, fuel' = k + 1 := ⟨fuel' - 1, by omega⟩
        rw [layerLoop, if_neg hch, hid, hstep]

theorem layerLoop_sub (conds : Node → Condition) (nodes : List Node) (layer : List Node) :
    ∀ (fuel : Nat) (st : SchedState) (exec : Finset Node),
      (layerLoop conds nodes layer fuel st exec).2 ⊆ exec ∪ layer.toFinset
  | 0, _, exec => Finset.subset_union_left
  | fuel + 1, st, exec => by
    rw [layerLoop]
    split
    · refine (layerLoop_sub conds nodes layer fuel _ _).trans ?_
      refine Finset.union_subset ((scan_sub_union conds nodes layer st exec false).trans ?_)
        Finset.subset_union_right
      exact Finset.Subset.refl _
    · exact scan_sub_union conds nodes layer st exec false

/-- C7: the intra-layer do-while loop adds each node of the layer at most
once to the time step (the accumulated execution set only contains layer
members and is a set, the `not in` guard forbidding re-adds) and reaches
its fixed point within `|layer| + 1` full scans: scanning the result of
`layerFix` (which runs `|layer| + 1` scans) produces no further addition,
and giving the loop any more fuel does not change its result. -/
theorem C7_layer_fixed_point (conds : Node → Condition) (nodes : List Node)
    (layer : List Node) (st : SchedState) :
    (scanLayer conds nodes layer (layerFix conds nodes layer st).1
        (layerFix conds nodes layer st).2 false).2.2 = false ∧
    (∀ fuel, layer.length + 1 ≤ fuel →
      layerLoop conds nodes layer fuel st ∅ = layerFix conds nodes layer st) ∧
    (layerFix conds nodes layer st).2 ⊆ layer.toFinset := by
  have hcard : (layer.toFinset \ (∅ : Finset Node)).card < layer.length + 1 := by
    rw [Finset.sdiff_empty]
    exact Nat.lt_succ_of_le layer.toFinset_card_le
  have h := layerLoop_fix conds nodes layer (layer.length + 1) st ∅ hcard
  refine ⟨h.1, h.2, ?_⟩
  have := layerLoop_sub conds nodes layer (layer.length + 1) st ∅
  rwa [Finset.empty_union] at this

/-- Witness for C7: in a concrete two-node layer, fuel beyond
`|layer| + 1` leaves the loop's result unchanged. -/
theorem C7_layer_fixed_point_witness :
    layerLoop (fun _ => Always) [0, 1] [0, 1] 5 initState ∅ =
      layerFix (fun _ => Always) [0, 1] [0, 1] initState :=
  (C7_layer_fixed_point (fun _ => Always) [0, 1] [0, 1] initState).2.1 5 (by decide)

/-- C1: when the run loop selects a node `X` in a time step (`X` not yet
in the step and its Condition satisfied), the state it passes on is
exactly `record_execution nodes X st`, and that update: increments
`counts_total[ts][X]` for every TimeScale, zeroes `counts_useable[n][X]`
for every node `n ≠ X`, leaves `counts_useable[X][X]` at exactly `1`
(zeroed then granted one unit), adds one unit of credit
`counts_useable[X][m]` for every other node `m`, and changes no other
counter cell (other `counts_useable` cells, other `counts_total` columns,
and all time counters are untouched). -/
theorem C1_selection_updates_counters (conds : Node → Condition) (nodes : List Node)
    (st : SchedState) (X : Node) (hX : X ∈ nodes) (rest : List Node)
    (exec : Finset Node) (ch : Bool) (hnew : X ∉ exec) (hsat : conds X st = true) :
    scanLayer conds nodes (X :: rest) st exec ch =
      scanLayer conds nodes rest (record_execution nodes X st) (insert X exec) true ∧
    (∀ ts, (record_execution nodes X st).counts_total ts X = st.counts_total ts X + 1) ∧
    (∀ ts n, n ≠ X →
      (record_execution nodes X st).counts_total ts n = st.counts_total ts n) ∧
    (∀ n, n ∈ nodes → n ≠ X → (record_execution nodes X st).counts_useable n X = 0) ∧
    (record_execution nodes X st).counts_useable X X = 1 ∧
    (∀ m, m ∈ nodes → m ≠ X →
      (record_execution nodes X st).counts_useable X m = st.counts_useable X m + 1) ∧
    (∀ a b, a ≠ X → b ≠ X →
      (record_execution nodes X st).counts_useable a b = st.counts_useable a b) ∧
    (record_execution nodes X st).times = st.times ∧
    (record_execution nodes X st).execution_list = st.execution_list := by
  refine ⟨?_, ?_, ?_, ?_, ?_, ?_, ?_, rfl, rfl⟩
  · simp only [scanLayer]
    rw [if_pos ⟨hnew, hsat⟩]
  · intro ts; simp [record_execution]
  · intro ts n hn; simp [record_execution, hn]
  · intro n hn hne; simp [record_execution, hn, hne, hX]
  · simp [record_execution, hX]
  · intro m hm hne
    simp [record_execution, hm, hne, Ne.symm hne]
  · intro a b ha hb
    simp [record_execution, ha, hb]

/-- Witness for C1: in a two-node scheduler, selecting node `0` from a
fresh state sets its self-credit cell to exactly one. -/
theorem C1_selection_updates_counters_witness :
    (record_execution [0, 1] 0 initState).counts_useable 0 0 = 1 :=
  (C1_selection_updates_counters (fun _ => Always) [0, 1] initState 0 (by decide)
    [] ∅ false (by decide) rfl).2.2.2.2.1

/-- C2 counterexample: calling `run()` with no termination conditions at
all leaves the TRIAL termination Condition unset, yet validation succeeds
(every scale, TRIAL included, is defaulted to `AllHaveRun`) instead of
raising the `SchedulerError` the claim requires. -/
theorem C2_counterexample_no_error_when_unset :
    ¬ isOkE (validate_termination [0] none) = false := by decide

/-- C2 amended: if `run()` is called with no termination dict at all,
every TimeScale (TRIAL included) is defaulted to `AllHaveRun` and no
error is raised; if a dict is supplied, a `None` TRIAL entry raises
`SchedulerError`, while `None` entries of non-TRIAL scales are left unset
rather than defaulted. -/
theorem C2_amended_validation (nodes : List Node) (t : TimeScale → Option Condition) :
    validate_termination nodes none = .ok (fun _ => some (AllHaveRun nodes)) ∧
    (t TimeScale.TRIAL = none →
      validate_termination nodes (some t) = .error .trialTerminationMissing) ∧
    (∀ c, t TimeScale.TRIAL = some c → validate_termination nodes (some t) = .ok t) := by
  refine ⟨rfl, fun h => ?_, fun c h => ?_⟩
  · simp [validate_termination, h]
  · simp [validate_termination, h]

/-- Witness for C2: a supplied dict whose TRIAL entry is `None` is
rejected with a `SchedulerError`. -/
theorem C2_amended_validation_witness :
    validate_termination [0] (some fun _ => none) = .error .trialTerminationMissing :=
  (C2_amended_validation [0] fun _ => none).2.1 rfl

/-- C4: for the linear chain `A → B → C` with `EveryNCalls(A, 2)` on `B`,
`EveryNCalls(B, 3)` on `C`, `Always` on `A` and the default `AllHaveRun`
termination conditions, `run()` yields exactly the ten time steps
`[{A}, {A}, {B}, {A}, {A}, {B}, {A}, {A}, {B}, {C}]` and then
terminates the TRIAL. -/
theorem C4_chain_execution_sequence :
    (runYields chainSched none 7 initState).toOption =
      some ([{0}, {0}, {1}, {0}, {0}, {1}, {0}, {0}, {1}, {2}], true) := by decide

/-- C9: immediately after a node `X` is selected, its self-credit cell
`counts_useable[X][X]` equals exactly `1` whatever it was before (the
selection zeroes it as part of consuming X's incoming credit, then grants
one unit), and selections of other nodes never touch that cell — so a
node grants credit to itself but never holds more than one unit of its own
credit. -/
theorem C9_self_credit_exactly_one (nodes : List Node) (st : SchedState) (X : Node)
    (hX : X ∈ nodes) :
    (record_execution nodes X st).counts_useable X X = 1 ∧
    ∀ Y, Y ≠ X → (record_execution nodes Y st).counts_useable X X =
      st.counts_useable X X := by
  constructor
  · simp [record_execution, hX]
  · intro Y hY
    simp [record_execution, Ne.symm hY]

/-- Witness for C9: in a three-node scheduler with a dirty state, selecting
node `1` resets its accumulated self-credit to exactly one. -/
theorem C9_self_credit_exactly_one_witness :
    (record_execution [0, 1, 2] 1
        { initState with counts_useable := fun _ _ => 5 }).counts_useable 1 1 = 1 :=
  (C9_self_credit_exactly_one [0, 1, 2]
    { initState with counts_useable := fun _ _ => 5 } 1 (by decide)).1

theorem layerLoop_mono (conds : Node → Condition) (nodes : List Node) (layer : List Node) :
    ∀ (fuel : Nat) (st : SchedState) (exec : Finset Node),
      exec ⊆ (layerLoop conds nodes layer fuel st exec).2
  | 0, _, _ => Finset.Subset.refl _
  | fuel + 1, st, exec => by
    rw [layerLoop]
    split
    · exact (scan_mono conds nodes layer st exec false).trans
        (layerLoop_mono conds nodes layer fuel _ _)
    · exact scan_mono conds nodes layer st exec false

theorem layerFix_empty_id (conds : Node → Condition) (nodes : List Node)
    (layer : List Node) (st : SchedState)
    (h : (layerFix conds nodes layer st).2 = ∅) :
    layerFix conds nodes layer st = (st, ∅) := by
  unfold layerFix at h ⊢
  by_cases hch : (scanLayer conds nodes layer st ∅ false).2.2 = true
  · exfalso
    have hgrow := scan_changed_grow conds nodes layer st ∅ hch
    rw [layerLoop, if_pos hch] at h
    have hmono := layerLoop_mono conds nodes layer layer.length
      (scanLayer conds nodes layer st ∅ false).1 (scanLayer conds nodes layer st ∅ false).2.1
    rw [h] at hmono
    exact hgrow.not_subset (hmono.trans (Finset.empty_subset _))
  · have hid := scan_false_id conds nodes layer st ∅ false (Bool.eq_false_iff.2 hch)
    rw [layerLoop, if_neg hch, hid]

theorem walk_yields_nonempty (term : Condition) (conds : Node → Condition)
    (nodes : List Node) :
    ∀ (queue : List (List Node)) (st : SchedState),
      ∀ s ∈ (walkQueue term conds nodes queue st).2.1, s ≠ ∅
  | [], _, s, hs => absurd hs (List.not_mem_nil s)
  | layer :: rest, st, s, hs => by
    by_cases ht : term st = true
    · rw [walkQueue, if_pos ht] at hs
      exact absurd hs (List.not_mem_nil s)
    · by_cases hp : (layerFix conds nodes layer st).2 = ∅
      · rw [walkQueue, if_neg ht, if_pos hp] at hs
        exact walk_yields_nonempty term conds nodes rest _ s hs
      · simp only [walkQueue, if_neg ht, if_neg hp, List.mem_cons] at hs
        rcases hs with rfl | hs
        · exact hp
        · exact walk_yields_nonempty term conds nodes rest _ s hs

theorem walk_false_id (term : Condition) (conds : Node → Condition) (nodes : List Node) :
    ∀ (queue : List (List Node)) (st : SchedState),
      (walkQueue term conds nodes queue st).2.2 = false →
      walkQueue term conds nodes queue st = (st, [], false)
  | [], _, _ => rfl
  | layer :: rest, st, h => by
    by_cases ht : term st = true
    · rw [walkQueue, if_pos ht]
    · by_cases hp : (layerFix conds nodes layer st).2 = ∅
      · rw [walkQueue, if_neg ht, if_pos hp] at h ⊢
        simp only [layerFix_empty_id conds nodes layer st hp] at h ⊢
        exact walk_false_id term conds nodes rest st h
      · have hch : (walkQueue term conds nodes (layer :: rest) st).2.2 = true := by
          rw [walkQueue, if_neg ht, if_neg hp]
        rw [hch] at h
        cases h

/-- C3: within a `run()`, a PASS yields an empty set exactly when its walk
of the consideration queue produced zero node additions (the
`execution_list_has_changed` flag stayed false): such a stalled PASS
yields exactly the one empty set and advances the TIME_STEP clock once,
while a PASS with at least one addition yields no empty set — every time
step yielded for an individual layer is non-empty. -/
theorem C3_stalled_pass_empty_step (term : Condition) (conds : Node → Condition)
    (nodes : List Node) (queue : List (List Node)) (st : SchedState) :
    ((∅ : Finset Node) ∈ (onePass term conds nodes queue st).2 ↔
      (walkQueue term conds nodes queue (passReset st)).2.2 = false) ∧
    ((walkQueue term conds nodes queue (passReset st)).2.2 = false →
      (onePass term conds nodes queue st).2 = [∅] ∧
      (onePass term conds nodes queue st).1.times TimeScale.TRIAL TimeScale.TIME_STEP =
        st.times TimeScale.TRIAL TimeScale.TIME_STEP + 1) ∧
    ((walkQueue term conds nodes queue (passReset st)).2.2 = true →
      ∀ s ∈ (onePass term conds nodes queue st).2, s ≠ ∅) := by
  by_cases hch : (walkQueue term conds nodes queue (passReset st)).2.2 = true
  · refine ⟨?_, ?_, ?_⟩
    · rw [hch]
      simp only [onePass, if_pos hch]
      constructor
      · intro hmem
        exact absurd rfl (walk_yields_nonempty term conds nodes queue (passReset st) ∅ hmem)
      · intro hcon
        cases hcon
    · intro hful
      rw [hch] at hful
      cases hful
    · intro _ s hs
      simp only [onePass, if_pos hch] at hs
      exact walk_yields_nonempty term conds nodes queue (passReset st) s hs
  · have hch' : (walkQueue term conds nodes queue (passReset st)).2.2 = false :=
      Bool.eq_false_iff.2 hch
    have hid := walk_false_id term conds nodes queue (passReset st) hch'
    refine ⟨?_, ?_, ?_⟩
    · rw [hch']
      simp only [onePass, if_neg hch, hid]
      simp
    · intro _
      constructor
      · simp only [onePass, if_neg hch, hid]
        simp
      · simp only [onePass, if_neg hch, hid]
        simp [increment_time, appendStep, passReset, reset_time, reset_count]
    · intro hcon
      rw [hch'] at hcon
      cases hcon

/-- Witness for C3: a one-node scheduler whose node can never run stalls in
its first PASS, yielding exactly one empty time step and advancing the
TIME_STEP clock once. -/
theorem C3_stalled_pass_empty_step_witness :
    (onePass (fun _ => false) (fun _ => fun _ => false) [0] [[0]] initState).2 = [∅] ∧
    (onePass (fun _ => false) (fun _ => fun _ => false) [0] [[0]]
        initState).1.times TimeScale.TRIAL TimeScale.TIME_STEP =
      initState.times TimeScale.TRIAL TimeScale.TIME_STEP + 1 :=
  (C3_stalled_pass_empty_step (fun _ => false) (fun _ => fun _ => false) [0] [[0]]
    initState).2.1 (by decide)

/-- C8 counterexample: with the TRIAL termination condition
`All(AtPass(0), AfterNCalls(A, 1, TRIAL))` on the two-layer scheduler
`c8Sched`, the condition is satisfied at the layer boundary reached after
the first layer of the first PASS (first conjunct), so the walk stops
there and the second layer is never considered (second conjunct) — yet the
PASS increment un-satisfies the condition, the TRIAL goes on (the
termination flag stays false), and node `0` is selected again in the
second PASS of the same TRIAL (third conjunct), contradicting the claim
that no further node is selected for execution in that trial. -/
theorem C8_counterexample_trial_continues :
    c8Term stMidC8 = true ∧
    (walkQueue c8Term c8Conds [0, 1] [[0], [1]] stPassC8).2 = ([{0}], true) ∧
    (runYields c8Sched (some c8Tc) 2 initState).toOption = some ([{0}, {0}], false) :=
  ⟨by decide, by decide, by decide⟩

/-- C8 amended: once the TRIAL termination Condition is satisfied at a
layer boundary during the walk of the consideration queue, no subsequent
layer of that PASS is considered and no further node is selected in that
PASS — the walk returns immediately, with no yields and no state change.
Nodes may still be selected in later PASSes of the same trial if the
condition is no longer satisfied when the outer loop re-checks it after
the PASS increment. -/
theorem C8_amended_walk_stops_early (term : Condition) (conds : Node → Condition)
    (nodes : List Node) (queue : List (List Node)) (st : SchedState)
    (h : term st = true) :
    walkQueue term conds nodes queue st = (st, [], false) := by
  cases queue with
  | nil => rfl
  | cons layer rest => rw [walkQueue, if_pos h]

/-- Witness for C8: a satisfied termination condition makes the walk of a
non-empty queue return immediately. -/
theorem C8_amended_walk_stops_early_witness :
    walkQueue (fun _ => true) (fun _ => Always) [0] [[0]] initState =
      (initState, [], false) :=
  C8_amended_walk_stops_early (fun _ => true) (fun _ => Always) [0] [[0]] initState rfl

theorem scan_exec_list (conds : Node → Condition) (nodes : List Node) :
    ∀ (l : List Node) (st : SchedState) (exec : Finset Node) (ch : Bool),
      (scanLayer conds nodes l st exec ch).1.execution_list = st.execution_list
  | [], _, _, _ => rfl
  | x :: rest, st, exec, ch => by
    rw [scanLayer]
    split
    · exact scan_exec_list conds nodes rest _ _ _
    · exact scan_exec_list conds nodes rest _ _ _

theorem layerLoop_exec_list (conds : Node → Condition) (nodes : List Node)
    (layer : List Node) :
    ∀ (fuel : Nat) (st : SchedState) (exec : Finset Node),
      (layerLoop conds nodes layer fuel st exec).1.execution_list = st.execution_list
  | 0, _, _ => rfl
  | fuel + 1, st, exec => by
    rw [layerLoop]
    split
    · rw [layerLoop_exec_list conds nodes layer fuel _ _]
      exact scan_exec_list conds nodes layer st exec false
    · exact scan_exec_list conds nodes layer st exec false

theorem walk_exec_list (term : Condition) (conds : Node → Condition) (nodes : List Node) :
    ∀ (queue : List (List Node)) (st : SchedState),
      (walkQueue term conds nodes queue st).1.execution_list =
        st.execution_list ++ (walkQueue term conds nodes queue st).2.1
  | [], st => by simp [walkQueue]
  | layer :: rest, st => by
    by_cases ht : term st = true
    · rw [walkQueue, if_pos ht]
      simp
    · by_cases hp : (layerFix conds nodes layer st).2 = ∅
      · rw [walkQueue, if_neg ht, if_pos hp]
        rw [walk_exec_list term conds nodes rest _]
        rw [show (layerFix conds nodes layer st).1.execution_list = st.execution_list from
          layerLoop_exec_list conds nodes layer (layer.length + 1) st ∅]
      · simp only [walkQueue, if_neg ht, if_neg hp]
        rw [walk_exec_list term conds nodes rest _]
        simp only [stepYield, increment_time, appendStep]
        rw [show (layerFix conds nodes layer st).1.execution_list = st.execution_list from
          layerLoop_exec_list conds nodes layer (layer.length + 1) st ∅]
        simp

theorem onePass_exec_list (term : Condition) (conds : Node → Condition)
    (nodes : List Node) (queue : List (List Node)) (st : SchedState) :
    (onePass term conds nodes queue st).1.execution_list =
      st.execution_list ++ (onePass term conds nodes queue st).2 := by
  have hw := walk_exec_list term conds nodes queue (passReset st)
  have hpr : (passReset st).execution_list = st.execution_list := rfl
  by_cases hch : (walkQueue term conds nodes queue (passReset st)).2.2 = true
  · simp only [onePass, if_pos hch, increment_time]
    rw [hw, hpr]
  · simp only [onePass, if_neg hch, increment_time, appendStep]
    rw [hw, hpr]
    simp

theorem runLoop_exec_list (term : Condition) (conds : Node → Condition)
    (nodes : List Node) (queue : List (List Node)) :
    ∀ (fuel : Nat) (st : SchedState),
      (runLoop term conds nodes queue fuel st).1.execution_list =
        st.execution_list ++ (runLoop term conds nodes queue fuel st).2.1
  | 0, st => by simp [runLoop]
  | fuel + 1, st => by
    by_cases ht : term st = true
    · rw [runLoop, if_pos ht]
      simp [increment_time]
    · simp only [runLoop, if_neg ht]
      rw [runLoop_exec_list term conds nodes queue fuel _]
      rw [onePass_exec_list term conds nodes queue st]
      simp

/-- C10: `run()` never clears the execution history — the final state's
`execution_list` is the pre-run history with this run's yields appended
after it, so a later `run()` appends after all earlier ones and the value
returned at exhaustion contains every previous run's time steps.  The
initial resets of `run()` touch exactly `counts_useable` (all pairs), the
TRIAL scope of `counts_total` and the TRIAL row of the time counters;
`counts_total` at the RUN and LIFE scales (and every non-TRIAL scale)
persists, as do the non-TRIAL time rows and the history.  The last
conjunct anchors `runLoop` after `runInit` to a full `schedRun` call. -/
theorem C10_history_persists_across_runs (term : Condition) (conds : Node → Condition)
    (nodes : List Node) (queue : List (List Node)) (fuel : Nat) (st : SchedState) :
    (runLoop term conds nodes queue fuel (runInit st)).1.execution_list =
      st.execution_list ++ (runLoop term conds nodes queue fuel (runInit st)).2.1 ∧
    (runInit st).execution_list = st.execution_list ∧
    (∀ a b, (runInit st).counts_useable a b = 0) ∧
    (∀ n, (runInit st).counts_total TimeScale.TRIAL n = 0) ∧
    (∀ ts, (runInit st).times TimeScale.TRIAL ts = 0) ∧
    (∀ n, (runInit st).counts_total TimeScale.RUN n = st.counts_total TimeScale.RUN n) ∧
    (∀ n, (runInit st).counts_total TimeScale.LIFE n = st.counts_total TimeScale.LIFE n) ∧
    (∀ ts n, ts ≠ TimeScale.TRIAL →
      (runInit st).counts_total ts n = st.counts_total ts n) ∧
    (∀ ts s, ts ≠ TimeScale.TRIAL → (runInit st).times ts s = st.times ts s) ∧
    (∀ (sched : Scheduler) (t : TimeScale → Option Condition),
      t TimeScale.TRIAL = some term →
      schedRun sched (some t) fuel st =
        .ok (runLoop term sched.conditions sched.nodes sched.consideration_queue fuel
              (runInit st))) := by
  refine ⟨?_, rfl, fun a b => rfl, fun n => ?_, fun ts => ?_, fun n => ?_, fun n => ?_,
    fun ts n h => ?_, fun ts s h => ?_, fun sched t h => ?_⟩
  · rw [runLoop_exec_list term conds nodes queue fuel (runInit st)]
    rfl
  · simp [runInit, reset_time, reset_count]
  · simp [runInit, reset_time, reset_count]
  · simp [runInit, reset_time, reset_count]
  · simp [runInit, reset_time, reset_count]
  · simp [runInit, reset_time, reset_count, h]
  · simp [runInit, reset_time, reset_count, h]
  · simp [schedRun, validate_termination, h]

theorem mem_getD_of_mem {p : List Node} {x : Node} (hx : x ∈ p) :
    ∃ i, i < p.length ∧ p.getD i 0 = x := by
  obtain ⟨i, hi, hget⟩ := List.mem_iff_getElem.1 hx
  exact ⟨i, hi, by rw [List.getD_eq_getElem p 0 hi]; exact hget⟩

theorem getD_mem_of_lt {p : List Node} {i : Nat} (hi : i < p.length) :
    p.getD i 0 ∈ p := by
  rw [List.getD_eq_getElem p 0 hi]
  exact List.getElem_mem hi

theorem cycle_avoids_nextLayer {deps : Node → List Node} {p : List Node}
    (hcyc : IsCycle deps p) {rem : List Node} (hsub : ∀ x ∈ p, x ∈ rem) :
    ∀ x ∈ p, x ∉ nextLayer deps rem := by
  intro x hx hmem
  obtain ⟨i, hi, hgi⟩ := mem_getD_of_mem hx
  have hdep := hcyc.2 i hi
  have hsucc : p.getD ((i + 1) % p.length) 0 ∈ p :=
    getD_mem_of_lt (Nat.mod_lt _ (List.length_pos.2 hcyc.1))
  rw [nextLayer, List.mem_filter] at hmem
  have hall := List.all_eq_true.1 hmem.2 _ (hgi ▸ hdep)
  exact (of_decide_eq_true hall) (hsub _ hsucc)

theorem topo_cycle_none (deps : Node → List Node) (p : List Node)
    (hcyc : IsCycle deps p) :
    ∀ (fuel : Nat) (rem : List Node), (∀ x ∈ p, x ∈ rem) →
      toposortLayers deps fuel rem = none := by
  intro fuel
  induction fuel with
  | zero =>
    intro rem hsub
    cases rem with
    | nil =>
      obtain ⟨x, hx⟩ := List.exists_mem_of_ne_nil p hcyc.1
      exact absurd (hsub x hx) (List.not_mem_nil x)
    | cons y rem => rfl
  | succ fuel ih =>
    intro rem hsub
    cases rem with
    | nil =>
      obtain ⟨x, hx⟩ := List.exists_mem_of_ne_nil p hcyc.1
      exact absurd (hsub x hx) (List.not_mem_nil x)
    | cons y rem =>
      by_cases hemp : (nextLayer deps (y :: rem)).isEmpty = true
      · rw [toposortLayers, if_pos hemp]
      · rw [toposortLayers, if_neg hemp]
        have hsub' : ∀ x ∈ p,
            x ∈ (y :: rem).filter fun n => decide (n ∉ nextLayer deps (y :: rem)) := by
          intro x hx
          exact List.mem_filter.2 ⟨hsub x hx,
            decide_eq_true (cycle_avoids_nextLayer hcyc hsub x hx)⟩
        rw [ih _ hsub']
        rfl

/-- C6: a dependency graph containing a cycle makes the layering fail with
a `CyclicGraphError` (`none`): the cycle's nodes can never enter a layer,
so the iteration can never exhaust the node set. -/
theorem C6_cycle_detection (nodes : List Node) (deps : Node → List Node) (p : List Node)
    (hsub : ∀ x ∈ p, x ∈ nodes) (hcyc : IsCycle deps p) :
    consideration_queue_of nodes deps = none :=
  topo_cycle_none deps p hcyc nodes.length nodes hsub

/-- Witness for C6: the two-node cyclic graph `0 → 1 → 0` is rejected. -/
theorem C6_cycle_detection_witness :
    consideration_queue_of [0, 1] cyclicDeps = none :=
  C6_cycle_detection [0, 1] cyclicDeps [0, 1] (by decide) (by decide)

theorem mem_nextLayer {deps : Node → List Node} {rem : List Node} {n : Node} :
    n ∈ nextLayer deps rem ↔ n ∈ rem ∧ ∀ d ∈ deps n, d ∉ rem := by
  simp [nextLayer, List.mem_filter, List.all_eq_true]

theorem cycle_from_repeat (deps : Node → List Node) (rem : List Node) (w : Nat → Node)
    (hwmem : ∀ k, w k ∈ rem) (hwdep : ∀ k, w (k + 1) ∈ deps (w k))
    (i j : Nat) (hij : i < j) (heq : w i = w j) :
    ∃ p, (∀ x ∈ p, x ∈ rem) ∧ IsCycle deps p := by
  refine ⟨(List.range (j - i)).map fun k => w (i + k), ?_, ?_, ?_⟩
  · intro x hx
    obtain ⟨k, hk, rfl⟩ := List.mem_map.1 hx
    exact hwmem _
  · intro hnil
    have hlen := congrArg List.length hnil
    simp only [List.length_map, List.length_range, List.length_nil] at hlen
    omega
  · have hlen : ((List.range (j - i)).map fun k => w (i + k)).length = j - i := by
      simp
    have hget : ∀ k (hk : k < j - i),
        ((List.range (j - i)).map fun k => w (i + k)).getD k 0 = w (i + k) := by
      intro k hk
      have hk' : k < ((List.range (j - i)).map fun k => w (i + k)).length := by
        simpa [hlen] using hk
      rw [List.getD_eq_getElem _ 0 hk']
      simp
    intro t ht
    rw [hlen] at ht ⊢
    by_cases hsucc : t + 1 < j - i
    · rw [hget t ht, Nat.mod_eq_of_lt hsucc, hget _ hsucc]
      have harith : i + (t + 1) = (i + t) + 1 := by omega
      rw [harith]
      exact hwdep (i + t)
    · have htm : t + 1 = j - i := by omega
      rw [hget t ht, htm, Nat.mod_self, hget 0 (by omega)]
      have harith : w (i + 0) = w ((i + t) + 1) := by
        rw [Nat.add_zero, heq]
        congr 1
        omega
      rw [harith]
      exact hwdep (i + t)

theorem cycle_of_no_source (deps : Node → List Node) (rem : List Node) (hne : rem ≠ [])
    (hall : ∀ n ∈ rem, ∃ d, d ∈ deps n ∧ d ∈ rem) :
    ∃ p, (∀ x ∈ p, x ∈ rem) ∧ IsCycle deps p := by
  classical
  obtain ⟨x0, hx0⟩ := List.exists_mem_of_ne_nil rem hne
  set g : Node → Node := fun n => if h : n ∈ rem then (hall n h).choose else 0 with hg
  have hgmem : ∀ n, n ∈ rem → g n ∈ rem := by
    intro n h
    simp only [hg, dif_pos h]
    exact (hall n h).choose_spec.2
  have hgdep : ∀ n, n ∈ rem → g n ∈ deps n := by
    intro n h
    simp only [hg, dif_pos h]
    exact (hall n h).choose_spec.1
  set w : Nat → Node := fun k => g^[k] x0 with hw
  have hwmem : ∀ k, w k ∈ rem := by
    intro k
    induction k with
    | zero => exact hx0
    | succ k ihk =>
      have hit : w (k + 1) = g (w k) := by
        simp only [hw, Function.iterate_succ_apply']
      rw [hit]
      exact hgmem _ ihk
  have hwdep : ∀ k, w (k + 1) ∈ deps (w k) := by
    intro k
    have hit : w (k + 1) = g (w k) := by
      simp only [hw, Function.iterate_succ_apply']
    rw [hit]
    exact hgdep _ (hwmem k)
  have hmaps : ∀ k ∈ Finset.range (rem.length + 1), w k ∈ rem.toFinset := fun k _ =>
    List.mem_toFinset.2 (hwmem k)
  have hcard : rem.toFinset.card < (Finset.range (rem.length + 1)).card := by
    rw [Finset.card_range]
    exact Nat.lt_succ_of_le rem.toFinset_card_le
  obtain ⟨i, _, j, _, hij, heq⟩ :=
    Finset.exists_ne_map_eq_of_card_lt_of_maps_to hcard hmaps
  rcases Nat.lt_or_ge i j with hlt | hge
  · exact cycle_from_repeat deps rem w hwmem hwdep i j hlt heq
  · exact cycle_from_repeat deps rem w hwmem hwdep j i
      (lt_of_le_of_ne hge (Ne.symm hij)) heq.symm

theorem topo_some (deps : Node → List Node) (nodes : List Node)
    (hacyc : ¬∃ p, (∀ x ∈ p, x ∈ nodes) ∧ IsCycle deps p) :
    ∀ (fuel : Nat) (rem : List Node), rem.length ≤ fuel → (∀ x ∈ rem, x ∈ nodes) →
      (toposortLayers deps fuel rem).isSome = true := by
  intro fuel
  induction fuel with
  | zero =>
    intro rem hlen _
    have hnil : rem = [] := List.eq_nil_of_length_eq_zero (Nat.le_zero.1 hlen)
    subst hnil
    rfl
  | succ fuel ih =>
    intro rem hlen hsub
    cases rem with
    | nil => rfl
    | cons y rem =>
      by_cases hemp : (nextLayer deps (y :: rem)).isEmpty = true
      · exfalso
        have hall : ∀ n ∈ y :: rem, ∃ d, d ∈ deps n ∧ d ∈ y :: rem := by
          intro n hn
          have hnil := List.isEmpty_iff.1 hemp
          have hnot : n ∉ nextLayer deps (y :: rem) := by
            rw [hnil]
            exact List.not_mem_nil n
          rw [mem_nextLayer] at hnot
          push_neg at hnot
          obtain ⟨d, hd, hdrem⟩ := hnot hn
          exact ⟨d, hd, hdrem⟩
        obtain ⟨p, hp1, hp2⟩ :=
          cycle_of_no_source deps (y :: rem) (List.cons_ne_nil y rem) hall
        exact hacyc ⟨p, fun x hx => hsub x (hp1 x hx), hp2⟩
      · rw [toposortLayers, if_neg hemp, Option.isSome_map']
        have hlne : nextLayer deps (y :: rem) ≠ [] := by
          intro hc
          rw [hc] at hemp
          exact hemp rfl
        obtain ⟨x, hxlay⟩ := List.exists_mem_of_ne_nil _ hlne
        have hxrem : x ∈ y :: rem := (mem_nextLayer.1 hxlay).1
        have hflt : ((y :: rem).filter fun n =>
            decide (n ∉ nextLayer deps (y :: rem))).length < (y :: rem).length := by
          rw [List.length_filter_lt_length_iff_exists]
          exact ⟨x, hxrem, fun hc => (of_decide_eq_true hc) hxlay⟩
        apply ih
        · omega
        · intro z hz
          exact hsub z (List.mem_filter.1 hz).1

theorem topo_sound (deps : Node → List Node) :
    ∀ (fuel : Nat) (rem : List Node) (L : List (List Node)),
      toposortLayers deps fuel rem = some L →
      ((∀ n, (∃ i, i < L.length ∧ n ∈ L.getD i []) ↔ n ∈ rem) ∧
       (∀ i j, i < j → j < L.length → ∀ n ∈ L.getD i [], n ∉ L.getD j []) ∧
       (∀ j, j < L.length → ∀ b ∈ L.getD j [], ∀ a ∈ deps b, a ∈ rem →
         ∃ i, i < j ∧ a ∈ L.getD i [])) := by
  intro fuel
  induction fuel with
  | zero =>
    intro rem L hL
    cases rem with
    | nil =>
      simp only [toposortLayers, Option.some.injEq] at hL
      subst hL
      exact ⟨by simp, by simp, by simp⟩
    | cons y rem => exact Option.noConfusion hL
  | succ fuel ih =>
    intro rem L hL
    cases rem with
    | nil =>
      simp only [toposortLayers, Option.some.injEq] at hL
      subst hL
      exact ⟨by simp, by simp, by simp⟩
    | cons y rem =>
      by_cases hemp : (nextLayer deps (y :: rem)).isEmpty = true
      · rw [toposortLayers, if_pos hemp] at hL
        exact Option.noConfusion hL
      · rw [toposortLayers, if_neg hemp] at hL
        obtain ⟨L', hL', rfl⟩ := Option.map_eq_some'.1 hL
        obtain ⟨iha, ihb, ihc⟩ := ih _ _ hL'
        have hmemR' : ∀ n, n ∈ ((y :: rem).filter fun n =>
            decide (n ∉ nextLayer deps (y :: rem))) ↔
            n ∈ y :: rem ∧ n ∉ nextLayer deps (y :: rem) := by
          intro n
          simp [List.mem_filter]
        refine ⟨?_, ?_, ?_⟩
        · intro n
          constructor
          · rintro ⟨i, hi, hmem⟩
            cases i with
            | zero => exact (mem_nextLayer.1 hmem).1
            | succ i' =>
              have hR' := (iha n).1 ⟨i', Nat.lt_of_succ_lt_succ hi, hmem⟩
              exact ((hmemR' n).1 hR').1
          · intro hn
            by_cases hA : n ∈ nextLayer deps (y :: rem)
            · exact ⟨0, Nat.succ_pos _, hA⟩
            · obtain ⟨i, hi, hm⟩ := (iha n).2 ((hmemR' n).2 ⟨hn, hA⟩)
              exact ⟨i + 1, Nat.succ_lt_succ hi, hm⟩
        · intro i j hij hj n hni hnj
          cases i with
          | zero =>
            cases j with
            | zero => omega
            | succ j' =>
              have hR' := (iha n).1 ⟨j', Nat.lt_of_succ_lt_succ hj, hnj⟩
              exact ((hmemR' n).1 hR').2 hni
          | succ i' =>
            cases j with
            | zero => omega
            | succ j' =>
              exact ihb i' j' (by omega) (Nat.lt_of_succ_lt_succ hj) n hni hnj
        · intro j hj b hb a ha harem
          cases j with
          | zero =>
            exact absurd harem ((mem_nextLayer.1 hb).2 a ha)
          | succ j' =>
            by_cases hA : a ∈ nextLayer deps (y :: rem)
            · exact ⟨0, Nat.succ_pos _, hA⟩
            · obtain ⟨i, hi, hm⟩ := ihc j' (Nat.lt_of_succ_lt_succ hj) b hb a ha
                ((hmemR' a).2 ⟨harem, hA⟩)
              exact ⟨i + 1, Nat.succ_lt_succ hi, hm⟩

/-- C5: for every acyclic dependency graph (closed over the node set), the
consideration queue is built successfully as an ordered list of layers in
which every node appears (first conjunct) and only nodes appear (second),
distinct layers are disjoint so each node lies in exactly one layer
(third), and for every dependency edge `a → b` the layer index of the
prerequisite `a` is strictly smaller than that of the dependent `b`
(fourth). -/
theorem C5_acyclic_layering (nodes : List Node) (deps : Node → List Node)
    (hclosed : ∀ n ∈ nodes, ∀ d ∈ deps n, d ∈ nodes)
    (hacyc : ¬∃ p, (∀ x ∈ p, x ∈ nodes) ∧ IsCycle deps p) :
    ∃ L, consideration_queue_of nodes deps = some L ∧
      (∀ n ∈ nodes, ∃ i, i < L.length ∧ n ∈ L.getD i []) ∧
      (∀ i, i < L.length → ∀ n ∈ L.getD i [], n ∈ nodes) ∧
      (∀ i j, i ≠ j → i < L.length → j < L.length →
        ∀ n ∈ L.getD i [], n ∉ L.getD j []) ∧
      (∀ a b i j, b ∈ nodes → a ∈ deps b → i < L.length → j < L.length →
        a ∈ L.getD i [] → b ∈ L.getD j [] → i < j) := by
  have hsome := topo_some deps nodes hacyc nodes.length nodes (Nat.le_refl _)
    fun x hx => hx
  obtain ⟨L, hL⟩ := Option.isSome_iff_exists.1 hsome
  obtain ⟨ha, hb, hc⟩ := topo_sound deps nodes.length nodes L hL
  refine ⟨L, hL, ?_, ?_, ?_, ?_⟩
  · intro n hn
    exact (ha n).2 hn
  · intro i hi n hn
    exact (ha n).1 ⟨i, hi, hn⟩
  · intro i j hij hi hj n hni hnj
    rcases Nat.lt_or_ge i j with h | h
    · exact hb i j h hj n hni hnj
    · exact hb j i (lt_of_le_of_ne h (Ne.symm hij)) hi n hnj hni
  · intro a b i j hbn hab hi hj hai hbj
    obtain ⟨i', hi', hm⟩ := hc j hj b hbj a hab (hclosed b hbn a hab)
    by_cases hii : i = i'
    · omega
    · exfalso
      rcases Nat.lt_or_ge i i' with h | h
      · exact hb i i' h (lt_trans hi' hj) a hai hm
      · exact hb i' i (lt_of_le_of_ne h (Ne.symm hii)) hi a hm hai

theorem no_cycle_of_rank (deps : Node → List Node) (r : Node → Nat)
    (hr : ∀ n, ∀ d ∈ deps n, r d < r n) (nodes : List Node) :
    ¬∃ p, (∀ x ∈ p, x ∈ nodes) ∧ IsCycle deps p := by
  rintro ⟨p, -, hne, hcyc⟩
  have hlen : 0 < p.length := List.length_pos.2 hne
  obtain ⟨i0, hi0, hmin⟩ := Finset.exists_min_image (Finset.range p.length)
    (fun i => r (p.getD i 0)) ⟨0, Finset.mem_range.2 hlen⟩
  have hlt := hr _ _ (hcyc i0 (Finset.mem_range.1 hi0))
  have hmem : (i0 + 1) % p.length ∈ Finset.range p.length :=
    Finset.mem_range.2 (Nat.mod_lt _ hlen)
  exact absurd (hmin _ hmem) (not_le.2 hlt)

theorem chainDeps_rank : ∀ n : Node, ∀ d ∈ chainDeps n, d < n := by
  intro n d hd
  by_cases h1 : n = 1
  · subst h1
    simp [chainDeps] at hd
    subst hd
    decide
  · by_cases h2 : n = 2
    · subst h2
      simp [chainDeps] at hd
      subst hd
      decide
    · simp only [chainDeps, if_neg h1, if_neg h2] at hd
      exact absurd hd (List.not_mem_nil d)

/-- Witness for C5: the three-node chain `0 → 1 → 2` is layered
successfully into disjoint edge-respecting layers. -/
theorem C5_acyclic_layering_witness :
    ∃ L, consideration_queue_of [0, 1, 2] chainDeps = some L ∧
      (∀ n ∈ [0, 1, 2], ∃ i, i < L.length ∧ n ∈ L.getD i []) ∧
      (∀ i, i < L.length → ∀ n ∈ L.getD i [], n ∈ [0, 1, 2]) ∧
      (∀ i j, i ≠ j → i < L.length → j < L.length →
        ∀ n ∈ L.getD i [], n ∉ L.getD j []) ∧
      (∀ a b i j, b ∈ [0, 1, 2] → a ∈ chainDeps b → i < L.length → j < L.length →
        a ∈ L.getD i [] → b ∈ L.getD j [] → i < j) :=
  C5_acyclic_layering [0, 1, 2] chainDeps (by decide)
    (no_cycle_of_rank chainDeps (fun n => n) chainDeps_rank [0, 1, 2])

/-- Witness for C10: starting from a dirty state, the initial resets of
`run()` leave the PASS scope of `counts_total` untouched. -/
theorem C10_history_persists_across_runs_witness :
    (runInit { initState with
        times := fun _ _ => 3
        counts_total := fun _ _ => 4 }).counts_total TimeScale.PASS 1 =
      ({ initState with
        times := fun _ _ => 3
        counts_total := fun _ _ => 4 } : SchedState).counts_total TimeScale.PASS 1 :=
  (C10_history_persists_across_runs (fun _ => true) (fun _ => Always) [] [] 0
    { initState with
        times := fun _ _ => 3
        counts_total := fun _ _ => 4 }).2.2.2.2.2.2.2.1 TimeScale.PASS 1 (by decide)

end PsyNeuLink

